import Mathlib

/-!
Verification development for the MerViz diagram editor.

Shallow embedding of the numeric and string-processing core of the
repository:

* src/lib/export.ts   : sanitizeSvg, parseSvgSize defaulting, downloadPng
                        raster sizing (scale computation and surface size);
* src/App.tsx         : zoom stepping, computeFitScale, the debounced
                        auto-render effect, the svg/error display state,
                        theme/font configuration assembly, and the
                        double-click-to-locate editor selection;
* src/lib/mermaidClient.ts : renderMermaid (validate first, then render,
                        then normalize HTML-flavored void tags).

JavaScript numbers are modelled as rationals (the arithmetic in every
claim is exact), strings as Lean Strings or lists of Chars, and the
third-party mermaid engine as an explicit record of a validation
function and a render function.
-/

namespace MerViz

/-! ## Export encoder (src/lib/export.ts) -/

/-- export.ts lines 49-54: the effective raster scale.  If the caller
supplied a scale it is used, otherwise max(3, 2000 / longest intrinsic
edge); either way the result is clamped into [0.5, 8]. -/
def effectiveScale (scaleArg : Option ℚ) (w h : ℚ) : ℚ :=
  let baseLongest := max w h
  let computed := scaleArg.getD (max 3 (2000 / baseLongest))
  max (1/2) (min 8 computed)

/-- export.ts lines 48, 56-57 (downloadPng): intrinsic size from
parseSvgSize (None when it fails) defaulting to 800x600, and the raster
surface dimensions round(w*s) x round(h*s). -/
def pngSurface (size : Option (ℚ × ℚ)) (scaleArg : Option ℚ) : ℤ × ℤ :=
  let sz := size.getD (800, 600)
  let s := effectiveScale scaleArg sz.1 sz.2
  (round (sz.1 * s), round (sz.2 * s))

/-! ## App.tsx: export handler, zoom stepping, fit scale -/

/-- App.tsx lines 198-201 (onExportPng): default scale argument 2,
no-op when there is no rendered svg.  The menu item on line 394 calls
this with no argument, i.e. with the default. -/
def onExportPng (size : Option (ℚ × ℚ)) (hasSvg : Bool) (scale : ℚ := 2) :
    Option (ℤ × ℤ) :=
  if hasSvg then some (pngSurface size (some scale)) else none

/-- App.tsx: `+(x).toFixed(2)` — round to a whole number of hundredths
(ties go to the larger value, as in JavaScript). -/
def round2 (x : ℚ) : ℚ := ((round (x * 100) : ℤ) : ℚ) / 100

/-- App.tsx line 203: zoomIn steps by +0.1 (rounded to hundredths) and
clamps above at 3. -/
def zoomIn (z : ℚ) : ℚ := min 3 (round2 (z + 1/10))

/-- App.tsx line 204: zoomOut steps by -0.1 (rounded to hundredths) and
clamps below at 0.2. -/
def zoomOut (z : ℚ) : ℚ := max (1/5) (round2 (z - 1/10))

/-- App.tsx lines 297-320 (computeFitScale), numeric core: available
area is the wrapper minus 16px padding on each of the four sides
(floored at 0), per-axis ratios (1 when the measured content extent is
zero), the smaller ratio, clamped into [0.1, 3]. -/
def computeFitScale (wrapW wrapH svgW svgH : ℚ) : ℚ :=
  let availW := max 0 (wrapW - 16 - 16)
  let availH := max 0 (wrapH - 16 - 16)
  let scaleX := if svgW = 0 then 1 else availW / svgW
  let scaleY := if svgH = 0 then 1 else availH / svgH
  max (1/10) (min 3 (min scaleX scaleY))

/-! ## App.tsx: debounced auto-render effect (lines 170-174) -/

/-- State of the debounce effect: at most one pending timer
(fire time and the code snapshot captured when it was scheduled) plus
the log of renders that have fired. -/
structure DebounceState where
  pending : Option (ℕ × String)
  renders : List (ℕ × String)
deriving DecidableEq

/-- App.tsx lines 170-174: a change of code (or config) at time t first
lets a previously scheduled timer fire if it was already due, cancels
it otherwise (the effect cleanup calls clearTimeout), and schedules a
fresh render 250 time-units later capturing the current text. -/
def applyEdit (s : DebounceState) (t : ℕ) (c : String) : DebounceState :=
  let fired :=
    match s.pending with
    | some p => if p.1 ≤ t then s.renders ++ [p] else s.renders
    | none => s.renders
  ⟨some (t + 250, c), fired⟩

/-- Run a time-ordered list of edits from the idle initial state. -/
def runEdits (edits : List (ℕ × String)) : DebounceState :=
  edits.foldl (fun s e => applyEdit s e.1 e.2) ⟨none, []⟩

/-- Let time run to infinity: the last pending timer, if any, fires. -/
def flushRenders (s : DebounceState) : List (ℕ × String) :=
  match s.pending with
  | some p => s.renders ++ [p]
  | none => s.renders

/-! ## App.tsx: svg / error display state (lines 125-126, 156-168) -/

/-- The pair of App state fields set by doRender: the stored markup
(empty string when absent, as in the code) and the error message
(null/none when absent). -/
structure RenderView where
  svg : String
  error : Option String
deriving DecidableEq

/-- App.tsx lines 125-126: useState initial values. -/
def initView : RenderView := ⟨"", none⟩

/-- App.tsx lines 158-160: a successful render stores the markup and
clears the error. -/
def applyRenderSuccess (v : RenderView) (markup : String) : RenderView :=
  ⟨markup, none⟩

/-- App.tsx lines 164-167: a failed render clears the markup and stores
the message. -/
def applyRenderFailure (v : RenderView) (msg : String) : RenderView :=
  ⟨"", some msg⟩

/-- States reachable from startup through completed render cycles. -/
inductive ReachableView : RenderView → Prop
  | init : ReachableView initView
  | success (v : RenderView) (m : String) :
      ReachableView v → ReachableView (applyRenderSuccess v m)
  | failure (v : RenderView) (e : String) :
      ReachableView v → ReachableView (applyRenderFailure v e)

/-- A non-empty stored markup (JS truthiness of the svg string). -/
def svgShown (v : RenderView) : Prop := v.svg ≠ ""

/-- A present error message. -/
def errorShown (v : RenderView) : Prop := v.error ≠ none

/-- Exactly one of the two fields is populated. -/
def exactlyOneShown (v : RenderView) : Prop :=
  (svgShown v ∧ ¬ errorShown v) ∨ (¬ svgShown v ∧ errorShown v)

/-! ## App.tsx: theme presets and render configuration (lines 12-120, 143-154) -/

/-- A character matched by the JS \s class (ASCII part). -/
def isJsSpace (c : Char) : Bool :=
  c = ' ' || c = '\t' || c = '\n' || c = '\r' || c = '\x0b' || c = '\x0c'

/-- replace(/\s+/g, ' '): collapse every whitespace run to one space.
The flag records whether the previous character was part of a run. -/
def collapseWsAux : Bool → List Char → List Char
  | _, [] => []
  | prevSpace, c :: t =>
    if isJsSpace c then
      if prevSpace then collapseWsAux true t else ' ' :: collapseWsAux true t
    else c :: collapseWsAux false t

/-- replace(/\s+/g, ' ') on a whole string. -/
def collapseWs (l : List Char) : List Char := collapseWsAux false l

/-- String.prototype.trim: strip leading and trailing whitespace. -/
def trimChars (l : List Char) : List Char :=
  ((l.dropWhile isJsSpace).reverse.dropWhile isJsSpace).reverse

/-- Does the second list start with the first? -/
def leadsWith : List Char → List Char → Bool
  | [], _ => true
  | _ :: _, [] => false
  | p :: ps, c :: cs => if p = c then leadsWith ps cs else false

/-- String.prototype.indexOf scanning from position i. -/
def indexOfFrom (pat : List Char) : List Char → ℕ → Option ℕ
  | hay, i =>
    if leadsWith pat hay then some i
    else
      match hay with
      | [] => none
      | _ :: t => indexOfFrom pat t (i + 1)

/-- String.prototype.indexOf: position of the first occurrence. -/
def jsIndexOf (hay pat : List Char) : Option ℕ := indexOfFrom pat hay 0

/-- String.prototype.toLowerCase (character-wise). -/
def lowerChars (l : List Char) : List Char := l.map Char.toLower

/-- App.tsx lines 209-227 (focusEditorAtText): collapse and trim the
clicked label, search it in the source case-sensitively and then
case-insensitively, and return the selected character range, or none
for a silent no-op.  A null/undefined/empty label returns early. -/
def focusEditorAtText (code : String) (raw : Option String) : Option (ℕ × ℕ) :=
  match raw with
  | none => none
  | some r =>
    if r = "" then none
    else
      let q := trimChars (collapseWs r.data)
      if q = [] then none
      else
        match jsIndexOf code.data q with
        | some i => some (i, i + q.length)
        | none =>
          match jsIndexOf (lowerChars code.data) (lowerChars q) with
          | some i => some (i, i + q.length)
          | none => none

/-! ## Renderer adapter and sanitization
(src/lib/mermaidClient.ts lines 473-500, src/lib/export.ts lines 3-7) -/

/-- A JS regex word character [A-Za-z0-9_], for the \b boundary. -/
def isWordChar (c : Char) : Bool := c.isAlpha || c.isDigit || c = '_'

/-- Consume [^>]* followed by '>', returning the remainder after the
'>' (none when the list holds no '>'). -/
def consumeToGt : List Char → Option (List Char)
  | [] => none
  | c :: rest => if c = '>' then some rest else consumeToGt rest

/-- Match the regex /<br\b[^>]*>/i at the head of the list; on success
return the remainder after the match. -/
def matchBr : List Char → Option (List Char)
  | c0 :: c1 :: c2 :: d :: rest =>
    if (c0 = '<' ∧ (c1 = 'b' ∨ c1 = 'B') ∧ (c2 = 'r' ∨ c2 = 'R')) ∧
        isWordChar d = false then
      consumeToGt (d :: rest)
    else none
  | _ => none

/-- One left-to-right pass of `.replace(/<br\b[^>]*>/gi, '<br/>')`,
with fuel bounding the recursion (the list length always suffices:
every step consumes at least one character). -/
def sanitizeBrF : ℕ → List Char → List Char
  | 0, l => l
  | _ + 1, [] => []
  | fuel + 1, c :: t =>
    match matchBr (c :: t) with
    | some rest => '<' :: 'b' :: 'r' :: '/' :: '>' :: sanitizeBrF fuel rest
    | none => c :: sanitizeBrF fuel t

/-- `.replace(/<br\b[^>]*>/gi, '<br/>')` on a character list. -/
def sanitizeBr (l : List Char) : List Char := sanitizeBrF l.length l

/-- export.ts lines 3-7 (sanitizeSvg): normalize every <br ...> to the
self-closing form for XML parsers. -/
def sanitizeSvg (s : String) : String := ⟨sanitizeBr s.data⟩

/-- mermaidClient.ts line 498: the identical normalization applied to
the engine's render output. -/
def sanitizeMermaidSvg (s : String) : String := ⟨sanitizeBr s.data⟩

/-- export.ts line 10: the content handed to the vector download. -/
def downloadSvgContent (svg : String) : String := sanitizeSvg svg

/-- export.ts line 46: the markup handed to the raster renderer. -/
def downloadPngSource (svg : String) : String := sanitizeSvg svg

/-- Scan a tag body for its closing '>', remembering the previous
character; returns (whether the tag was self-closing, the remainder). -/
def scanTag : Char → List Char → Option (Bool × List Char)
  | _, [] => none
  | prev, c :: rest =>
    if c = '>' then some (decide (prev = '/'), rest) else scanTag c rest

/-- Does an HTML-flavored (non-self-closing) br element start at the
head of the list? -/
def badBrAt : List Char → Bool
  | c0 :: c1 :: c2 :: d :: rest =>
    if (c0 = '<' ∧ (c1 = 'b' ∨ c1 = 'B') ∧ (c2 = 'r' ∨ c2 = 'R')) ∧
        isWordChar d = false then
      match scanTag 'r' (d :: rest) with
      | some p => !p.1
      | none => false
    else false
  | _ => false

/-- No HTML-flavored br element occurs anywhere in the list. -/
def noHtmlBr : List Char → Bool
  | [] => true
  | c :: t => !badBrAt (c :: t) && noHtmlBr t

/-- Do the first two characters spell (case-insensitively) "br"? -/
def brHead2 : List Char → Bool
  | c1 :: c2 :: _ => decide ((c1 = 'b' ∨ c1 = 'B') ∧ (c2 = 'r' ∨ c2 = 'R'))
  | _ => false

/-- The third-party mermaid engine, abstracted: a validation step that
either succeeds or fails with an optional message (mermaid.parse), and
a raw render step (mermaid.render) that can itself reject after
validation succeeded; its rejection carries a message. -/
structure MermaidEngine where
  parse : String → Except (Option String) Unit
  render : String → Except String String

/-- mermaidClient.ts line 491: `err?.message || 'Mermaid parse error'`
— a missing or empty (JS-falsy) message falls back to the generic
text. -/
def parseErrMsg (em : Option String) : String :=
  match em with
  | some m => if m = "" then "Mermaid parse error" else m
  | none => "Mermaid parse error"

/-- mermaidClient.ts lines 473-500 (renderMermaid): validate first and
fail with the sanitized message without rendering; on success await the
engine's render, whose own rejection propagates unchanged (the code
wraps no try/catch around mermaid.render); normalize the br tags in a
successful render's output. -/
def renderMermaid (eng : MermaidEngine) (code : String) : Except String String :=
  match eng.parse code with
  | .error em => .error (parseErrMsg em)
  | .ok _ =>
    match eng.render code with
    | .error msg => .error msg
    | .ok svg => .ok (sanitizeMermaidSvg svg)

/-- An always-valid engine whose raw output contains an HTML-flavored
br tag (used to exhibit the adapter on a concrete input). -/
def demoEngine : MermaidEngine :=
  ⟨fun _ => .ok (), fun _ => .ok "<svg><br></svg>"⟩

/-- An engine that rejects everything with the message "boom". -/
def demoBadEngine : MermaidEngine :=
  ⟨fun _ => .error (some "boom"), fun _ => .ok "unreached"⟩

/-- An engine whose validation succeeds but whose render step rejects
(the RenderError path: mermaid.render can fail after mermaid.parse
succeeded). -/
def demoFlakyEngine : MermaidEngine :=
  ⟨fun _ => .ok (), fun _ => .error "render exploded"⟩

/-- An engine whose validated render output carries an HTML-flavored
img void element, which the br-only normalization does not touch. -/
def demoImgEngine : MermaidEngine :=
  ⟨fun _ => .ok (), fun _ => .ok "<svg><img src=\"x\"></svg>"⟩

/-- The HTML void elements (HTML standard list), lowercase. -/
def VOID_ELEMENT_NAMES : List (List Char) :=
  ["area".data, "base".data, "br".data, "col".data, "embed".data,
   "hr".data, "img".data, "input".data, "link".data, "meta".data,
   "param".data, "source".data, "track".data, "wbr".data]

/-- Match a lowercase element name case-insensitively at the head of
the list; on success return the remainder after the name. -/
def matchNameCI : List Char → List Char → Option (List Char)
  | [], rest => some rest
  | _ :: _, [] => none
  | n :: ns, c :: cs => if c.toLower = n then matchNameCI ns cs else none

/-- Does an HTML-flavored (non-self-closing) void element tag of any
kind start at the head of the list?  Mirrors badBrAt with the element
name ranging over the whole void-element list. -/
def badVoidAt (l : List Char) : Bool :=
  match l with
  | '<' :: rest =>
    VOID_ELEMENT_NAMES.any (fun name =>
      match matchNameCI name rest with
      | some after =>
        (match after with
         | [] => false
         | d :: _ =>
           if isWordChar d then false
           else
             match scanTag 'a' after with
             | some p => !p.1
             | none => false)
      | none => false)
  | _ => false

/-- No HTML-flavored (non-self-closing) void element of any kind
occurs anywhere in the list. -/
def noHtmlVoid : List Char → Bool
  | [] => true
  | c :: t => !badVoidAt (c :: t) && noHtmlVoid t

/-! ## Theorems -/

/-! ### Substring search lemmas -/

theorem leadsWith_take {pat : List Char} : ∀ {hay : List Char},
    leadsWith pat hay = true → hay.take pat.length = pat := by
  induction pat with
  | nil => intro hay _; simp
  | cons p ps ih =>
    intro hay h
    cases hay with
    | nil => simp [leadsWith] at h
    | cons c cs =>
      simp only [leadsWith] at h
      split at h
      · next hpc =>
        subst hpc
        simpa [List.take] using ih h
      · simp at h

theorem indexOfFrom_spec {pat : List Char} : ∀ {hay : List Char} {j i : ℕ},
    indexOfFrom pat hay j = some i →
    j ≤ i ∧ leadsWith pat (hay.drop (i - j)) = true := by
  intro hay
  induction hay with
  | nil =>
    intro j i h
    simp only [indexOfFrom] at h
    split at h
    · next hl =>
      obtain rfl := Option.some.inj h
      exact ⟨le_rfl, by simpa [Nat.sub_self] using hl⟩
    · simp at h
  | cons c t ih =>
    intro j i h
    simp only [indexOfFrom] at h
    split at h
    · next hl =>
      obtain rfl := Option.some.inj h
      exact ⟨le_rfl, by simpa [Nat.sub_self] using hl⟩
    · obtain ⟨hji, hlw⟩ := ih h
      refine ⟨Nat.le_of_succ_le hji, ?_⟩
      have hd : (c :: t).drop (i - j) = t.drop (i - (j + 1)) := by
        have h1 : i - j = (i - (j + 1)) + 1 := by omega
        rw [h1]
        rfl
      rw [hd]
      exact hlw

theorem jsIndexOf_slice {hay pat : List Char} {i : ℕ}
    (h : jsIndexOf hay pat = some i) : (hay.drop i).take pat.length = pat := by
  obtain ⟨-, hlw⟩ := indexOfFrom_spec h
  simpa using leadsWith_take hlw

/-! ### Sanitizer lemmas -/

theorem consumeToGt_length : ∀ {l r : List Char},
    consumeToGt l = some r → r.length < l.length := by
  intro l
  induction l with
  | nil => intro r h; simp [consumeToGt] at h
  | cons c t ih =>
    intro r h
    simp only [consumeToGt] at h
    split at h
    · obtain rfl := Option.some.inj h
      exact Nat.lt_succ_self _
    · exact Nat.lt_succ_of_lt (ih h)

theorem consumeToGt_gt_mem : ∀ {l r : List Char},
    consumeToGt l = some r → '>' ∈ l := by
  intro l
  induction l with
  | nil => intro r h; simp [consumeToGt] at h
  | cons c t ih =>
    intro r h
    simp only [consumeToGt] at h
    split at h
    · next hc => exact hc ▸ List.mem_cons_self c t
    · exact List.mem_cons_of_mem c (ih h)

theorem consumeToGt_eq_none : ∀ {l : List Char},
    consumeToGt l = none → '>' ∉ l := by
  intro l
  induction l with
  | nil => intro _; simp
  | cons c t ih =>
    intro h
    simp only [consumeToGt] at h
    split at h
    · exact absurd h (by simp)
    · next hc =>
      intro hmem
      rcases List.mem_cons.mp hmem with heq | hm
      · exact hc heq.symm
      · exact ih h hm

theorem scanTag_none : ∀ {l : List Char} (p : Char),
    '>' ∉ l → scanTag p l = none := by
  intro l
  induction l with
  | nil => intro p _; rfl
  | cons c t ih =>
    intro p h
    have hc : ¬ c = '>' := fun e => h (e ▸ List.mem_cons_self c t)
    simp only [scanTag, if_neg hc]
    exact ih c (fun m => h (List.mem_cons_of_mem c m))

theorem matchBr_some {l r : List Char} (h : matchBr l = some r) :
    ∃ c1 c2 d rest, l = '<' :: c1 :: c2 :: d :: rest ∧
      (c1 = 'b' ∨ c1 = 'B') ∧ (c2 = 'r' ∨ c2 = 'R') ∧
      isWordChar d = false ∧ consumeToGt (d :: rest) = some r := by
  match l with
  | [] => simp [matchBr] at h
  | [a] => simp [matchBr] at h
  | [a, b] => simp [matchBr] at h
  | [a, b, c] => simp [matchBr] at h
  | c0 :: c1 :: c2 :: d :: rest =>
    simp only [matchBr] at h
    split at h
    · next hcond =>
      obtain ⟨⟨rfl, hb, hr⟩, hw⟩ := hcond
      exact ⟨c1, c2, d, rest, rfl, hb, hr, hw, h⟩
    · simp at h

theorem matchBr_length {l r : List Char} (h : matchBr l = some r) :
    r.length < l.length := by
  obtain ⟨c1, c2, d, rest, rfl, -, -, -, hc⟩ := matchBr_some h
  have hlt := consumeToGt_length hc
  simp only [List.length_cons] at hlt ⊢
  omega

theorem matchBr_gt_mem {l r : List Char} (h : matchBr l = some r) : '>' ∈ l := by
  obtain ⟨c1, c2, d, rest, rfl, -, -, -, hc⟩ := matchBr_some h
  exact List.mem_cons_of_mem _ (List.mem_cons_of_mem _
    (List.mem_cons_of_mem _ (consumeToGt_gt_mem hc)))

theorem matchBr_none_of_no_gt {l : List Char} (h : '>' ∉ l) : matchBr l = none := by
  cases hm : matchBr l with
  | none => rfl
  | some r => exact absurd (matchBr_gt_mem hm) h

theorem matchBr_ne_lt {c : Char} (t : List Char) (hc : c ≠ '<') :
    matchBr (c :: t) = none := by
  match t with
  | [] => rfl
  | [a] => rfl
  | [a, b] => rfl
  | a :: b :: e :: r => simp [matchBr, hc]

theorem sanitizeBrF_nil (fuel : ℕ) : sanitizeBrF fuel [] = [] := by
  cases fuel <;> rfl

theorem sanitizeBrF_singleton (fuel : ℕ) (c : Char) :
    sanitizeBrF fuel [c] = [c] := by
  cases fuel with
  | zero => rfl
  | succ f => rw [sanitizeBrF, show matchBr [c] = none from rfl, sanitizeBrF_nil]

theorem sanitizeBrF_pair (fuel : ℕ) (a b : Char) :
    sanitizeBrF fuel [a, b] = [a, b] := by
  cases fuel with
  | zero => rfl
  | succ f => rw [sanitizeBrF, show matchBr [a, b] = none from rfl, sanitizeBrF_singleton]

theorem sanitizeBrF_cons_of_ne (fuel : ℕ) (c : Char) (t : List Char) (hc : c ≠ '<') :
    sanitizeBrF fuel (c :: t) = c :: sanitizeBrF (fuel - 1) t ∨
    sanitizeBrF fuel (c :: t) = c :: t := by
  cases fuel with
  | zero => exact Or.inr rfl
  | succ f =>
    left
    rw [sanitizeBrF, matchBr_ne_lt t hc]
    rfl

theorem sanitizeBrF_no_gt : ∀ (fuel : ℕ) {l : List Char},
    '>' ∉ l → sanitizeBrF fuel l = l := by
  intro fuel
  induction fuel with
  | zero => intro l _; rfl
  | succ f ih =>
    intro l h
    cases l with
    | nil => rfl
    | cons c t =>
      rw [sanitizeBrF, matchBr_none_of_no_gt h]
      exact congrArg (c :: ·) (ih (fun m => h (List.mem_cons_of_mem c m)))

theorem sanitizeBrF_head (fuel : ℕ) (l : List Char) :
    (sanitizeBrF fuel l).head? = l.head? := by
  cases fuel with
  | zero => rfl
  | succ f =>
    cases l with
    | nil => rfl
    | cons c t =>
      cases hm : matchBr (c :: t) with
      | some rest =>
        obtain ⟨c1, c2, d, r2, heq, -, -, -, -⟩ := matchBr_some hm
        have hc : c = '<' := by
          simp only [List.cons.injEq] at heq
          exact heq.1
        rw [sanitizeBrF, hm, hc]
        rfl
      | none =>
        rw [sanitizeBrF, hm]
        rfl

theorem brHead2_cons (c : Char) {x y : List Char} (h : x.head? = y.head?) :
    brHead2 (c :: x) = brHead2 (c :: y) := by
  cases x with
  | nil =>
    cases y with
    | nil => rfl
    | cons b ys => simp [List.head?] at h
  | cons a xs =>
    cases y with
    | nil => simp [List.head?] at h
    | cons b ys =>
      simp only [List.head?, Option.some.injEq] at h
      subst h
      rfl

theorem sanitizeBrF_brHead2 (fuel : ℕ) (l : List Char) :
    brHead2 (sanitizeBrF fuel l) = brHead2 l := by
  cases fuel with
  | zero => rfl
  | succ f =>
    cases l with
    | nil => rfl
    | cons c t =>
      cases hm : matchBr (c :: t) with
      | some rest =>
        obtain ⟨c1, c2, d, r2, heq, -, -, -, -⟩ := matchBr_some hm
        rw [sanitizeBrF, hm, heq]
        rfl
      | none =>
        rw [sanitizeBrF, hm]
        show brHead2 (c :: sanitizeBrF f t) = brHead2 (c :: t)
        exact brHead2_cons c (sanitizeBrF_head f t)

theorem badBrAt_not_lt : ∀ {l : List Char}, l.head? ≠ some '<' → badBrAt l = false := by
  intro l h
  match l with
  | [] => rfl
  | [a] => rfl
  | [a, b] => rfl
  | [a, b, c] => rfl
  | a :: b :: c :: d :: r =>
    have ha : ¬ a = '<' := fun e => h (by simp [List.head?, e])
    simp [badBrAt, ha]

theorem badBrAt_lt_no_br : ∀ {x : List Char}, brHead2 x = false →
    badBrAt ('<' :: x) = false := by
  intro x h
  match x with
  | [] => rfl
  | [a] => rfl
  | a :: b :: r =>
    have hcond : ¬ ((a = 'b' ∨ a = 'B') ∧ (b = 'r' ∨ b = 'R')) := by
      simpa [brHead2, decide_eq_false_iff_not] using h
    match r with
    | [] => rfl
    | d :: r2 => simp [badBrAt, hcond]

theorem badBrAt_word {c1 c2 d : Char} {w : List Char} (hw : isWordChar d = true) :
    badBrAt ('<' :: c1 :: c2 :: d :: w) = false := by
  simp [badBrAt, hw]

theorem badBrAt_no_gt {c1 c2 d : Char} {w : List Char}
    (hwd : isWordChar d = false) (hmem : '>' ∉ d :: w) :
    badBrAt ('<' :: c1 :: c2 :: d :: w) = false := by
  simp [badBrAt, hwd, scanTag_none 'r' hmem, ite_self]

theorem badBrAt_sanitize_of_matchBr_none (f : ℕ) {c : Char} {t : List Char}
    (hm : matchBr (c :: t) = none) :
    badBrAt (c :: sanitizeBrF f t) = false := by
  by_cases hc : c = '<'
  case neg =>
    exact badBrAt_not_lt (fun e => hc (Option.some.inj e))
  case pos =>
    subst hc
    match t with
    | [] => rw [sanitizeBrF_nil]; rfl
    | [c1] => rw [sanitizeBrF_singleton]; rfl
    | [c1, c2] => rw [sanitizeBrF_pair]; rfl
    | c1 :: c2 :: d :: r3 =>
      simp only [matchBr] at hm
      split at hm
      · next hcond =>
        obtain ⟨⟨-, hb, hr⟩, hwd⟩ := hcond
        have hmem : '>' ∉ d :: r3 := consumeToGt_eq_none hm
        have hc1 : c1 ≠ '<' := by rcases hb with rfl | rfl <;> decide
        have hc2 : c2 ≠ '<' := by rcases hr with rfl | rfl <;> decide
        have hdr : sanitizeBrF (f - 1 - 1) (d :: r3) = d :: r3 :=
          sanitizeBrF_no_gt _ hmem
        rcases sanitizeBrF_cons_of_ne f c1 (c2 :: d :: r3) hc1 with h1 | h1
        · rcases sanitizeBrF_cons_of_ne (f - 1) c2 (d :: r3) hc2 with h2 | h2
          · rw [h1, h2, hdr]
            exact badBrAt_no_gt hwd hmem
          · rw [h1, h2]
            exact badBrAt_no_gt hwd hmem
        · rw [h1]
          exact badBrAt_no_gt hwd hmem
      · next hcond =>
        by_cases hbr : (c1 = 'b' ∨ c1 = 'B') ∧ (c2 = 'r' ∨ c2 = 'R')
        · have hw : isWordChar d = true := by
            by_contra hwf
            exact hcond ⟨⟨by trivial, hbr.1, hbr.2⟩, by simpa using hwf⟩
          have hc1 : c1 ≠ '<' := by rcases hbr.1 with rfl | rfl <;> decide
          have hc2 : c2 ≠ '<' := by rcases hbr.2 with rfl | rfl <;> decide
          have hd : d ≠ '<' := fun e => by rw [e] at hw; exact absurd hw (by decide)
          rcases sanitizeBrF_cons_of_ne f c1 (c2 :: d :: r3) hc1 with h1 | h1
          · rcases sanitizeBrF_cons_of_ne (f - 1) c2 (d :: r3) hc2 with h2 | h2
            · rcases sanitizeBrF_cons_of_ne (f - 1 - 1) d r3 hd with h3 | h3
              · rw [h1, h2, h3]; exact badBrAt_word hw
              · rw [h1, h2, h3]; exact badBrAt_word hw
            · rw [h1, h2]; exact badBrAt_word hw
          · rw [h1]; exact badBrAt_word hw
        · have hbt : brHead2 (c1 :: c2 :: d :: r3) = false := by
            simp [brHead2, hbr]
          rw [← sanitizeBrF_brHead2 f (c1 :: c2 :: d :: r3)] at hbt
          exact badBrAt_lt_no_br hbt

theorem noHtmlBr_sanitizeBrF : ∀ (fuel : ℕ) (l : List Char), l.length ≤ fuel →
    noHtmlBr (sanitizeBrF fuel l) = true := by
  intro fuel
  induction fuel with
  | zero =>
    intro l hl
    obtain rfl : l = [] := List.eq_nil_of_length_eq_zero (Nat.le_zero.mp hl)
    rfl
  | succ f ih =>
    intro l hl
    cases l with
    | nil => rfl
    | cons c t =>
      cases hm : matchBr (c :: t) with
      | some rest =>
        have hlen : rest.length ≤ f := by
          have h1 := matchBr_length hm
          simp only [List.length_cons] at h1 hl
          omega
        rw [sanitizeBrF, hm]
        show noHtmlBr ('<' :: 'b' :: 'r' :: '/' :: '>' :: sanitizeBrF f rest) = true
        have hs := ih rest hlen
        have b0 : badBrAt ('<' :: 'b' :: 'r' :: '/' :: '>' :: sanitizeBrF f rest)
            = false := rfl
        have b1 : badBrAt ('b' :: 'r' :: '/' :: '>' :: sanitizeBrF f rest)
            = false := rfl
        have b2 : badBrAt ('r' :: '/' :: '>' :: sanitizeBrF f rest)
            = false := badBrAt_not_lt (fun e => absurd (Option.some.inj e) (by decide))
        have b3 : badBrAt ('/' :: '>' :: sanitizeBrF f rest)
            = false := badBrAt_not_lt (fun e => absurd (Option.some.inj e) (by decide))
        have b4 : badBrAt ('>' :: sanitizeBrF f rest)
            = false := badBrAt_not_lt (fun e => absurd (Option.some.inj e) (by decide))
        simp only [noHtmlBr]
        rw [b0, b1, b2, b3, b4, hs]
        rfl
      | none =>
        have hlen : t.length ≤ f := by
          simp only [List.length_cons] at hl
          omega
        rw [sanitizeBrF, hm]
        show noHtmlBr (c :: sanitizeBrF f t) = true
        simp only [noHtmlBr]
        rw [ih t hlen, badBrAt_sanitize_of_matchBr_none f hm]
        rfl

theorem noHtmlBr_sanitizeBr (l : List Char) : noHtmlBr (sanitizeBr l) = true :=
  noHtmlBr_sanitizeBrF l.length l le_rfl

/-- C3: with no caller-supplied scale the raster export uses effective
scale s = clamp(max(3, 2000 / max(w,h)), 0.5, 8.0) and allocates a
round(w*s) x round(h*s) surface; a missing intrinsic size defaults to
800x600; intrinsic 800x600 yields s = 3 and a 2400x1800 surface. -/
theorem C3_raster_sizing :
    (∀ w h : ℚ, effectiveScale none w h =
      max (1/2) (min 8 (max 3 (2000 / max w h)))) ∧
    (∀ size : Option (ℚ × ℚ),
      pngSurface size none =
        (round ((size.getD (800, 600)).1 *
            effectiveScale none (size.getD (800, 600)).1 (size.getD (800, 600)).2),
         round ((size.getD (800, 600)).2 *
            effectiveScale none (size.getD (800, 600)).1 (size.getD (800, 600)).2))) ∧
    effectiveScale none 800 600 = 3 ∧
    pngSurface (some (800, 600)) none = (2400, 1800) ∧
    pngSurface none none = (2400, 1800) := by
  refine ⟨fun w h => rfl, fun size => rfl, ?_, ?_, ?_⟩
  · norm_num [effectiveScale]
  · norm_num [pngSurface, effectiveScale]
  · norm_num [pngSurface, effectiveScale]

/-- C6: for positive content size w x h the fit scale is
min(availW / w, availH / h) clamped to [0.1, 3.0] with availW, availH
the container extents less 16 pixels of padding per side (the code's
flooring of the available extents at 0 changes nothing after the
clamp), and shrinking the available area on both axes never increases
the recomputed fit scale. -/
theorem C6_fit_scale (W H w h : ℚ) (hw : 0 < w) (hh : 0 < h) :
    computeFitScale W H w h =
      max (1/10) (min 3 (min ((W - 32) / w) ((H - 32) / h))) ∧
    (∀ W2 H2 : ℚ, W2 ≤ W → H2 ≤ H →
      computeFitScale W2 H2 w h ≤ computeFitScale W H w h) := by
  have key : ∀ a b : ℚ,
      max (1/10 : ℚ) (min 3 (min (max 0 a / w) (max 0 b / h))) =
      max (1/10) (min 3 (min (a / w) (b / h))) := by
    intro a b
    have h1 : max 0 a / w = max 0 (a / w) := by
      rw [← max_div_div_right hw.le 0 a, zero_div]
    have h2 : max 0 b / h = max 0 (b / h) := by
      rw [← max_div_div_right hh.le 0 b, zero_div]
    rw [h1, h2, ← max_min_distrib_left, min_max_distrib_left,
      min_eq_right (by norm_num : (0:ℚ) ≤ 3), ← max_assoc,
      max_eq_left (by norm_num : (0:ℚ) ≤ 1/10)]
  constructor
  · have e1 : W - 16 - 16 = W - 32 := by ring
    have e2 : H - 16 - 16 = H - 32 := by ring
    simp only [computeFitScale, hw.ne', hh.ne', if_false, ite_false, e1, e2]
    exact key (W - 32) (H - 32)
  · intro W2 H2 hW hH
    simp only [computeFitScale, hw.ne', hh.ne', if_false, ite_false]
    gcongr

/-- C6 witness: the fit-scale formula and monotonicity at a concrete
container and content size. -/
theorem C6_fit_scale_witness :
    computeFitScale 800 640 100 50 =
      max (1/10) (min 3 (min ((800 - 32) / 100) ((640 - 32) / 50))) ∧
    computeFitScale 700 600 100 50 ≤ computeFitScale 800 640 100 50 :=
  ⟨(C6_fit_scale 800 640 100 50 (by norm_num) (by norm_num)).1,
   (C6_fit_scale 800 640 100 50 (by norm_num) (by norm_num)).2 700 600
     (by norm_num) (by norm_num)⟩

/-- C9: a menu-initiated raster export calls the encoder with the
handler's default scale argument 2, which the [0.5, 8] clamp leaves
unchanged whatever the intrinsic size is, so the auto-scale formula is
never consulted; without a rendered svg the handler does nothing. -/
theorem C9_menu_export_uses_scale_two :
    (∀ size : Option (ℚ × ℚ), onExportPng size true = some (pngSurface size (some 2))) ∧
    (∀ w h : ℚ, effectiveScale (some 2) w h = 2) ∧
    (∀ size : Option (ℚ × ℚ), onExportPng size false = none) := by
  refine ⟨fun size => rfl, fun w h => ?_, fun size => rfl⟩
  norm_num [effectiveScale]

/-- C8 counterexample: at zoom 0.2 a zoom-out step leaves the zoom at
0.2 (the code clamps at 0.2), not at max(0.1, 0.2 - 0.1) = 0.1 as the
claim states. -/
theorem C8_counterexample :
    zoomOut (1/5) ≠ max (1/10) (1/5 - 1/10) := by
  norm_num [zoomOut, round2]

/-- C8 (amended): manual zoom steps by ±0.1 per step with the zoom
clamped to [0.2, 3.0]: for every zoom value that is a whole number of
hundredths (toFixed(2) is then the identity), a zoom-out step yields
max(0.2, z - 0.1) and a zoom-in step yields min(3.0, z + 0.1). -/
theorem C8_zoom_step (z : ℚ) (h : ∃ n : ℤ, z * 100 = n) :
    zoomOut z = max (1/5) (z - 1/10) ∧ zoomIn z = min 3 (z + 1/10) := by
  obtain ⟨n, hn⟩ := h
  have hout : round2 (z - 1/10) = z - 1/10 := by
    have hcast : (z - 1/10) * 100 = ((n - 10 : ℤ) : ℚ) := by push_cast; linarith
    rw [round2, hcast, round_intCast]
    push_cast
    linarith
  have hin : round2 (z + 1/10) = z + 1/10 := by
    have hcast : (z + 1/10) * 100 = ((n + 10 : ℤ) : ℚ) := by push_cast; linarith
    rw [round2, hcast, round_intCast]
    push_cast
    linarith
  exact ⟨by rw [zoomOut, hout], by rw [zoomIn, hin]⟩

/-- C8 witness: the amended step law evaluated at zoom 1. -/
theorem C8_zoom_step_witness :
    zoomOut 1 = max (1/5) (1 - 1/10) ∧ zoomIn 1 = min 3 (1 + 1/10) :=
  C8_zoom_step 1 ⟨100, by norm_num⟩

/-- C4: while auto-update is on, an edit cancels a not-yet-due pending
render and schedules a new one 250 time-units later capturing the new
text; edits at t = 0, 100, 150 therefore produce exactly one render,
firing at t = 400 with the text of the t = 150 edit. -/
theorem C4_debounce :
    (∀ (s : DebounceState) (t : ℕ) (c : String) (ft : ℕ) (pc : String),
      s.pending = some (ft, pc) → t < ft →
      (applyEdit s t c).renders = s.renders ∧
      (applyEdit s t c).pending = some (t + 250, c)) ∧
    (∀ x y z : String,
      flushRenders (runEdits [(0, x), (100, y), (150, z)]) = [(400, z)]) := by
  refine ⟨fun s t c ft pc hp ht => ?_, fun x y z => rfl⟩
  simp [applyEdit, hp, Nat.not_le.mpr ht]

/-- C4 witness: a timer pending for t = 250 is cancelled, not fired, by
an edit at t = 100, which schedules a new render for t = 350. -/
theorem C4_debounce_witness :
    (applyEdit ⟨some (250, "a"), []⟩ 100 "b").renders = [] ∧
    (applyEdit ⟨some (250, "a"), []⟩ 100 "b").pending = some (350, "b") :=
  C4_debounce.1 ⟨some (250, "a"), []⟩ 100 "b" 250 "a" rfl (by decide)

/-- C5 counterexample: the initial state (before any render completes)
is reachable and has neither the graphic nor the error populated, so
"exactly one of the two fields is populated at any time" fails there. -/
theorem C5_counterexample :
    ReachableView initView ∧ ¬ exactlyOneShown initView :=
  ⟨ReachableView.init, by simp [exactlyOneShown, svgShown, errorShown, initView]⟩

/-- C5 (amended): the two fields are never populated simultaneously in
any reachable state (at most one is populated; in the initial state
neither is); every failing cycle stores the message and clears the
graphic, and every succeeding cycle stores the graphic and clears the
error. -/
theorem C5_never_both_shown :
    (∀ v : RenderView, ReachableView v → ¬ (svgShown v ∧ errorShown v)) ∧
    (∀ (v : RenderView) (m : String), applyRenderSuccess v m = ⟨m, none⟩) ∧
    (∀ (v : RenderView) (e : String), applyRenderFailure v e = ⟨"", some e⟩) := by
  refine ⟨fun v hv => ?_, fun v m => rfl, fun v e => rfl⟩
  induction hv with
  | init => simp [svgShown, errorShown, initView]
  | success v m _ _ => simp [svgShown, errorShown, applyRenderSuccess]
  | failure v e _ _ => simp [svgShown, errorShown, applyRenderFailure]

/-- C5 witness: the invariant evaluated at the initial state. -/
theorem C5_never_both_shown_witness :
    ¬ (svgShown initView ∧ errorShown initView) :=
  C5_never_both_shown.1 initView ReachableView.init

/-- C1 counterexample: the claim as stated fails on two counts.  (a) A
render-step rejection after successful validation (the RenderError
path the adapter propagates) means "render succeeds for every valid
source" does not hold: demoFlakyEngine validates "graph TD" yet
renderMermaid rejects.  (b) The code normalizes only br: the validated
output of demoImgEngine passes through renderMermaid unchanged while
still containing an HTML-flavored (non-self-closing) img void element,
so the result neither is free of HTML-flavored void elements nor
re-parses as well-formed XML. -/
theorem C1_counterexample :
    (demoFlakyEngine.parse "graph TD" = Except.ok () ∧
      renderMermaid demoFlakyEngine "graph TD" = Except.error "render exploded") ∧
    (demoImgEngine.parse "graph TD" = Except.ok () ∧
      renderMermaid demoImgEngine "graph TD" =
        Except.ok "<svg><img src=\"x\"></svg>" ∧
      noHtmlVoid "<svg><img src=\"x\"></svg>".data = false) := by
  refine ⟨⟨rfl, rfl⟩, rfl, ?_, by decide⟩
  have hs : sanitizeMermaidSvg "<svg><img src=\"x\"></svg>" =
      "<svg><img src=\"x\"></svg>" := by decide
  rw [show renderMermaid demoImgEngine "graph TD" =
      Except.ok (sanitizeMermaidSvg "<svg><img src=\"x\"></svg>") from rfl, hs]

/-- C1 (amended): for every source that passes validation and whose
engine render step succeeds, render succeeds and returns the engine
output under the br normalization, after which the markup contains no
HTML-flavored (non-self-closing) br void element — the void element
the normalization targets; both export paths apply the identical
normalization before use, so the exported vector file carries no
HTML-flavored br element either.  Render-step failures after
validation are surfaced as errors, and void elements other than br are
not normalized. -/
theorem C1_render_sanitized (eng : MermaidEngine) (code : String)
    (hok : eng.parse code = Except.ok ())
    (svgRaw : String) (hr : eng.render code = Except.ok svgRaw) :
    renderMermaid eng code = Except.ok (sanitizeMermaidSvg svgRaw) ∧
    (∀ out, renderMermaid eng code = Except.ok out → noHtmlBr out.data = true) ∧
    (∀ s, downloadSvgContent s = sanitizeMermaidSvg s ∧
          downloadPngSource s = sanitizeMermaidSvg s) ∧
    (∀ s, noHtmlBr (downloadSvgContent s).data = true) := by
  have h1 : renderMermaid eng code = Except.ok (sanitizeMermaidSvg svgRaw) := by
    rw [renderMermaid, hok, hr]
  refine ⟨h1, ?_, fun s => ⟨rfl, rfl⟩, fun s => noHtmlBr_sanitizeBr _⟩
  intro out hout
  rw [h1] at hout
  obtain rfl := (Except.ok.inj hout).symm
  exact noHtmlBr_sanitizeBr _

/-- C1 witness: the adapter on an always-valid engine whose raw output
holds an HTML-flavored br tag. -/
theorem C1_render_sanitized_witness :
    renderMermaid demoEngine "graph TD" =
      Except.ok (sanitizeMermaidSvg "<svg><br></svg>") ∧
    noHtmlBr (sanitizeMermaidSvg "<svg><br></svg>").data = true := by
  have h := C1_render_sanitized demoEngine "graph TD" rfl "<svg><br></svg>" rfl
  exact ⟨h.1, h.2.1 _ h.1⟩

/-- C2: when validation fails, render fails with the validation
failure's message (or the generic fallback when it is missing or
empty), and the engine's render step is never consulted: the result is
unchanged under any replacement of the render function. -/
theorem C2_invalid_rejected (eng : MermaidEngine) (code : String) (em : Option String)
    (herr : eng.parse code = Except.error em) :
    renderMermaid eng code = Except.error (parseErrMsg em) ∧
    (∀ m, em = some m → m ≠ "" → parseErrMsg em = m) ∧
    ((em = none ∨ em = some "") → parseErrMsg em = "Mermaid parse error") ∧
    (∀ renderFn : String → Except String String,
      renderMermaid ⟨eng.parse, renderFn⟩ code = renderMermaid eng code) := by
  have h1 : renderMermaid eng code = Except.error (parseErrMsg em) := by
    rw [renderMermaid, herr]
  refine ⟨h1, ?_, ?_, ?_⟩
  · rintro m rfl hm
    simp [parseErrMsg, hm]
  · rintro (rfl | rfl) <;> rfl
  · intro renderFn
    have hp : (⟨eng.parse, renderFn⟩ : MermaidEngine).parse = eng.parse := rfl
    rw [renderMermaid, renderMermaid, hp, herr]

/-- C2 witness: an engine rejecting with message "boom". -/
theorem C2_invalid_rejected_witness :
    renderMermaid demoBadEngine "oops" = Except.error (parseErrMsg (some "boom")) ∧
    parseErrMsg (some "boom") = "boom" := by
  have h := C2_invalid_rejected demoBadEngine "oops" (some "boom") rfl
  exact ⟨h.1, h.2.1 "boom" rfl (by decide)⟩

/-- C7: a double-clicked label whose collapsed-and-trimmed text is
non-empty and occurs in the source (case-sensitively, else
case-insensitively) selects exactly the matched character range
[idx, idx + length); a label occurring nowhere changes nothing. -/
theorem C7_locate :
    (∀ (code raw : String) (i : ℕ),
      raw ≠ "" → trimChars (collapseWs raw.data) ≠ [] →
      jsIndexOf code.data (trimChars (collapseWs raw.data)) = some i →
      focusEditorAtText code (some raw) =
        some (i, i + (trimChars (collapseWs raw.data)).length) ∧
      (code.data.drop i).take (trimChars (collapseWs raw.data)).length =
        trimChars (collapseWs raw.data)) ∧
    (∀ (code raw : String) (i : ℕ),
      raw ≠ "" → trimChars (collapseWs raw.data) ≠ [] →
      jsIndexOf code.data (trimChars (collapseWs raw.data)) = none →
      jsIndexOf (lowerChars code.data)
        (lowerChars (trimChars (collapseWs raw.data))) = some i →
      focusEditorAtText code (some raw) =
        some (i, i + (trimChars (collapseWs raw.data)).length) ∧
      lowerChars ((code.data.drop i).take (trimChars (collapseWs raw.data)).length) =
        lowerChars (trimChars (collapseWs raw.data))) ∧
    (∀ (code raw : String),
      jsIndexOf code.data (trimChars (collapseWs raw.data)) = none →
      jsIndexOf (lowerChars code.data)
        (lowerChars (trimChars (collapseWs raw.data))) = none →
      focusEditorAtText code (some raw) = none) ∧
    (∀ code : String, focusEditorAtText code none = none) := by
  refine ⟨?_, ?_, ?_, fun code => rfl⟩
  · intro code raw i hraw hq hidx
    constructor
    · simp [focusEditorAtText, hraw, hq, hidx]
    · exact jsIndexOf_slice hidx
  · intro code raw i hraw hq hcs hci
    constructor
    · simp [focusEditorAtText, hraw, hq, hcs, hci]
    · have h := jsIndexOf_slice hci
      simpa [lowerChars, List.map_take, List.map_drop, List.length_map] using h
  · intro code raw hcs hci
    by_cases hraw : raw = ""
    · simp [focusEditorAtText, hraw]
    · by_cases hq : trimChars (collapseWs raw.data) = []
      · simp [focusEditorAtText, hraw, hq]
      · simp [focusEditorAtText, hraw, hq, hcs, hci]

/-- C7 witness: in the source "A[Start]" the clicked label "Start"
selects exactly the range [2, 7), whose text is "Start". -/
theorem C7_locate_witness :
    focusEditorAtText "A[Start]" (some "Start") =
      some (2, 2 + (trimChars (collapseWs "Start".data)).length) ∧
    ("A[Start]".data.drop 2).take (trimChars (collapseWs "Start".data)).length =
      trimChars (collapseWs "Start".data) :=
  C7_locate.1 "A[Start]" "Start" 2 (by decide) (by decide) (by decide)

end MerViz
